import Mathlib

/-!
Verification of the outbound AI call agent service core.

Shallow embedding of the repository's JavaScript core into Lean 4:

* the cache layer (`cacheService.js`), in its local in-memory fallback mode
  (the mode active when the shared Redis store is unavailable);
* the session store (`conversationManager.js`, the variant with the
  conversation cap, array validation and file-size guard);
* the conversation state machine (`conversationStateManager.js`);
* the knowledge index (`knowledgeBaseService.js`);
* the per-utterance orchestrator (`processSpeechRoute.js`).

JavaScript `Map`s are modelled as association lists with `Map.set` replacing
the first existing binding in place (as the JS `Map` keeps insertion order),
`Date.now()` as an explicit integer parameter, and exceptions of external
collaborators as `Except` valued oracles passed to the handler.
-/

/-! ## JavaScript `Map` model -/

/-- `Map.prototype.get`: first binding for the key, if any. -/
def mapGet {α : Type} : List (String × α) → String → Option α
  | [], _ => none
  | (k', v) :: rest, k => if k' = k then some v else mapGet rest k

/-- `Map.prototype.set`: replace the first binding in place, else append. -/
def mapSet {α : Type} : List (String × α) → String → α → List (String × α)
  | [], k, v => [(k, v)]
  | (k', v') :: rest, k, v =>
    if k' = k then (k, v) :: rest else (k', v') :: mapSet rest k v

/-- `Map.prototype.delete`: drop the first binding for the key. -/
def mapDelete {α : Type} : List (String × α) → String → List (String × α)
  | [], _ => []
  | (k', v) :: rest, k => if k' = k then rest else (k', v) :: mapDelete rest k

theorem mapGet_mapSet_self {α : Type} (m : List (String × α)) (k : String) (v : α) :
    mapGet (mapSet m k v) k = some v := by
  induction m with
  | nil => simp [mapGet, mapSet]
  | cons p rest ih =>
    obtain ⟨k', v'⟩ := p
    by_cases h : k' = k
    · simp [mapGet, mapSet, h]
    · simp [mapGet, mapSet, h, ih]

theorem mapGet_mapSet_ne {α : Type} (m : List (String × α)) (k k' : String) (v : α)
    (h : k' ≠ k) : mapGet (mapSet m k' v) k = mapGet m k := by
  induction m with
  | nil => simp [mapGet, mapSet, h]
  | cons p rest ih =>
    obtain ⟨k'', v''⟩ := p
    by_cases h2 : k'' = k'
    · simp [mapGet, mapSet, h2, h]
    · simp only [mapSet, if_neg h2]
      by_cases h3 : k'' = k
      · simp [mapGet, h3]
      · simp [mapGet, h3, ih]

/-! ## Cache layer (`cacheService.js`), local fallback path

When the Redis connection is down (`redisConnected = false`), every cache
operation uses the in-memory `Map`.  Each operation wraps its body in
try/catch; in the local path the body is built from total `Map` operations,
so the model is a total function (no exception can reach the caller). -/

/-- An entry of the in-memory fallback cache: `{ data, timestamp, ttl }`
with `timestamp` in milliseconds (`Date.now()`) and `ttl` in seconds. -/
structure CacheEntry (α : Type) where
  data : α
  timestamp : Int
  ttl : Int
deriving DecidableEq

/-- `getCache(key)`, local path: return the entry's data while
`Date.now() - value.timestamp < value.ttl * 1000`, else `null`. -/
def getCache {α : Type} (cache : List (String × CacheEntry α)) (key : String)
    (now : Int) : Option α :=
  match mapGet cache key with
  | some v => if now - v.timestamp < v.ttl * 1000 then some v.data else none
  | none => none

/-- The opportunistic sweep performed by the local `setCache`: delete every
entry with `now - v.timestamp > v.ttl * 1000`. -/
def sweepExpired {α : Type} (cache : List (String × CacheEntry α)) (now : Int) :
    List (String × CacheEntry α) :=
  cache.filter (fun p => !decide (now - p.2.timestamp > p.2.ttl * 1000))

/-- `setCache(key, value, ttl)`, local path: store
`{ data: value, timestamp: Date.now(), ttl }`, then sweep expired entries. -/
def setCache {α : Type} (cache : List (String × CacheEntry α)) (key : String)
    (value : α) (ttl : Int) (now : Int) : List (String × CacheEntry α) :=
  sweepExpired (mapSet cache key ⟨value, now, ttl⟩) now

/-- `deleteCache(key)`, local path: `memoryCache.delete(key)`. -/
def deleteCache {α : Type} (cache : List (String × CacheEntry α)) (key : String) :
    List (String × CacheEntry α) :=
  mapDelete cache key

theorem mapGet_filter_mapSet {α : Type} (m : List (String × α)) (k : String) (v : α)
    (p : String × α → Bool) (hp : p (k, v) = true) :
    mapGet (List.filter p (mapSet m k v)) k = some v := by
  induction m with
  | nil => simp [mapSet, List.filter, hp, mapGet]
  | cons q rest ih =>
    obtain ⟨k', v'⟩ := q
    by_cases h : k' = k
    · simp [mapSet, h, List.filter, hp, mapGet]
    · simp only [mapSet, if_neg h, List.filter_cons]
      by_cases hq : p (k', v') = true
      · simp only [hq, if_pos]
        simp [mapGet, h, ih]
      · simp only [Bool.not_eq_true] at hq
        simp [hq, ih]

/-- C2: in the cache layer's local fallback, an entry set with TTL `t`
seconds at time `T` and read `d` seconds later with `d > t` is absent.
(`0 ≤ t` reflects that TTLs are nonnegative second counts.) -/
theorem getCache_absent_after_ttl {α : Type} (cache : List (String × CacheEntry α))
    (key : String) (value : α) (t T d : Int) (ht : 0 ≤ t) (hd : d > t) :
    getCache (setCache cache key value t T) key (T + d * 1000) = none := by
  have hkeep : (fun p : String × CacheEntry α =>
      !decide (T - p.2.timestamp > p.2.ttl * 1000)) (key, ⟨value, T, t⟩) = true := by
    simp only [Bool.not_eq_true', decide_eq_false_iff_not, not_lt]
    omega
  have hget := mapGet_filter_mapSet cache key (⟨value, T, t⟩ : CacheEntry α)
    (fun p => !decide (T - p.2.timestamp > p.2.ttl * 1000)) hkeep
  simp only [getCache, setCache, sweepExpired, hget]
  have hlt : ¬ (T + d * 1000 - T < t * 1000) := by omega
  simp only [hlt, if_false]

/-- Witness for C2 at a concrete input: key `"k"`, value `7`, TTL 5 s,
set at time 0, read 6 s later. -/
theorem getCache_absent_after_ttl_w :
    (0 : Int) ≤ 5 ∧ (6 : Int) > 5 ∧
      getCache (setCache ([] : List (String × CacheEntry Nat)) "k" 7 5 0) "k" (0 + 6 * 1000) = none :=
  ⟨by decide, by decide,
    getCache_absent_after_ttl [] "k" 7 5 0 6 (by decide) (by decide)⟩

/-- C9: with the shared store unreachable, `setCache` followed immediately by
`getCache` on the same key round-trips the stored value through the local
fallback.  In this embedding `getCache`, `setCache` and `deleteCache` are
total functions (the source wraps each operation in try/catch and the local
path performs only `Map` operations), so no operation raises to the caller. -/
theorem getCache_after_setCache_roundtrip {α : Type}
    (cache : List (String × CacheEntry α)) (key : String) (value : α)
    (t T : Int) (ht : 0 < t) :
    getCache (setCache cache key value t T) key T = some value := by
  have hkeep : (fun p : String × CacheEntry α =>
      !decide (T - p.2.timestamp > p.2.ttl * 1000)) (key, ⟨value, T, t⟩) = true := by
    simp only [Bool.not_eq_true', decide_eq_false_iff_not, not_lt]
    omega
  have hget := mapGet_filter_mapSet cache key (⟨value, T, t⟩ : CacheEntry α)
    (fun p => !decide (T - p.2.timestamp > p.2.ttl * 1000)) hkeep
  simp only [getCache, setCache, sweepExpired, hget]
  have hlt : T - T < t * 1000 := by omega
  simp only [hlt, if_true]

/-- Witness for C9 at a concrete input: key `"k"`, value `42`, TTL 300 s. -/
theorem getCache_after_setCache_roundtrip_w :
    (0 : Int) < 300 ∧
      getCache (setCache ([] : List (String × CacheEntry Nat)) "k" 42 300 17) "k" 17 = some 42 :=
  ⟨by decide, getCache_after_setCache_roundtrip [] "k" 42 300 17 (by decide)⟩

/-! ## Session store (`conversationManager.js`, capped variant)

One record per call identifier, persisted as a JSON file.  A persisted file
is modelled by its byte size together with the outcome of `JSON.parse` on
its content: parsing may throw (`unparsable`), parse to a non-array value,
or parse to an array of `{role, content, timestamp}` turns.  The byte size
of a written file is supplied by a serialization-size oracle `sz`
(the length of `JSON.stringify(conversation, null, 2)`). -/

/-- One turn of a conversation: `{ role, content, timestamp }`. -/
structure SessionTurn where
  role : String
  content : String
  timestamp : String
deriving DecidableEq

/-- Outcome of `JSON.parse` on a session file's content. -/
inductive FileContent where
  | unparsable
  | nonArray
  | array (msgs : List SessionTurn)
deriving DecidableEq

/-- A persisted session file: its size in bytes and its parse outcome. -/
structure SessionFile where
  size : Nat
  content : FileContent
deriving DecidableEq

/-- `MAX_CONVERSATION_SIZE`: maximum number of messages per conversation. -/
def MAX_CONVERSATION_SIZE : Nat := 100

/-- `MAX_FILE_SIZE`: 1 MB maximum session file size. -/
def MAX_FILE_SIZE : Nat := 1024 * 1024

/-- `getConversation(callSid)` applied to the call's persisted file:
no file yields `[]`; an oversized file yields `[]`; a file whose content
fails `JSON.parse` yields `[]` (the catch branch); parsed non-array content
yields `[]` (the `Array.isArray` guard); otherwise the parsed array. -/
def getConversation (file : Option SessionFile) : List SessionTurn :=
  match file with
  | none => []
  | some f =>
    if f.size > MAX_FILE_SIZE then []
    else
      match f.content with
      | .unparsable => []
      | .nonArray => []
      | .array msgs => msgs

/-- The pure list transformation inside `saveMessage`: push the new message,
then `splice(0, length - MAX_CONVERSATION_SIZE)` when over the cap. -/
def saveMessageTurns (conversation : List SessionTurn)
    (role content timestamp : String) : List SessionTurn :=
  let conversation' := conversation ++ [⟨role, content, timestamp⟩]
  if conversation'.length > MAX_CONVERSATION_SIZE then
    conversation'.drop (conversation'.length - MAX_CONVERSATION_SIZE)
  else conversation'

/-- `saveMessage(callSid, role, content)` over the store of persisted files:
read the current conversation with `getConversation`, append and cap it,
and write it back as a JSON array whose byte size is `sz` of the list. -/
def saveMessage (sz : List SessionTurn → Nat) (store : List (String × SessionFile))
    (callSid role content timestamp : String) : List (String × SessionFile) :=
  let conversation := getConversation (mapGet store callSid)
  let conversation' := saveMessageTurns conversation role content timestamp
  mapSet store callSid ⟨sz conversation', .array conversation'⟩

/-- Appending a list of turns one by one through `saveMessage`. -/
def appendTurns (sz : List SessionTurn → Nat) (store : List (String × SessionFile))
    (callSid : String) (ts : List SessionTurn) : List (String × SessionFile) :=
  ts.foldl (fun st t => saveMessage sz st callSid t.role t.content t.timestamp) store

/-- C6: `getConversation` is a total function (it never propagates a failure)
and returns the empty sequence when no file exists, when the persisted
content is unparsable, and when it parses to a non-array value. -/
theorem getConversation_corrupt_empty :
    getConversation none = [] ∧
      (∀ n : Nat, getConversation (some ⟨n, .unparsable⟩) = []) ∧
      (∀ n : Nat, getConversation (some ⟨n, .nonArray⟩) = []) := by
  refine ⟨rfl, fun n => ?_, fun n => ?_⟩ <;>
    · simp only [getConversation]
      split <;> rfl

/-- The last `MAX_CONVERSATION_SIZE` elements of a list (what the
`splice(0, length - MAX_CONVERSATION_SIZE)` cap retains). -/
def lastCap (l : List SessionTurn) : List SessionTurn :=
  l.drop (l.length - MAX_CONVERSATION_SIZE)

theorem saveMessageTurns_eq_lastCap (conv : List SessionTurn) (r c t : String) :
    saveMessageTurns conv r c t = lastCap (conv ++ [⟨r, c, t⟩]) := by
  simp only [saveMessageTurns, lastCap]
  split
  · rfl
  · next h =>
    have h0 : (conv ++ [(⟨r, c, t⟩ : SessionTurn)]).length - MAX_CONVERSATION_SIZE = 0 := by
      omega
    rw [h0, List.drop_zero]

theorem lastCap_append (a b : List SessionTurn) :
    lastCap (lastCap a ++ b) = lastCap (a ++ b) := by
  unfold lastCap
  by_cases h : a.length ≤ MAX_CONVERSATION_SIZE
  · have h0 : a.length - MAX_CONVERSATION_SIZE = 0 := by omega
    rw [h0, List.drop_zero]
  · push_neg at h
    have hk : a.length - MAX_CONVERSATION_SIZE ≤ a.length := Nat.sub_le _ _
    rw [← List.drop_append_of_le_length hk, List.length_drop, List.drop_drop]
    have hidx : a.length - MAX_CONVERSATION_SIZE +
        ((a ++ b).length - (a.length - MAX_CONVERSATION_SIZE) - MAX_CONVERSATION_SIZE) =
        (a ++ b).length - MAX_CONVERSATION_SIZE := by
      simp only [List.length_append]
      omega
    rw [hidx]

theorem getConversation_some_array (n : Nat) (msgs : List SessionTurn)
    (h : ¬ n > MAX_FILE_SIZE) :
    getConversation (some ⟨n, .array msgs⟩) = msgs := by
  simp only [getConversation]
  rw [if_neg h]

theorem getConversation_saveMessage (sz : List SessionTurn → Nat)
    (store : List (String × SessionFile)) (sid r c t : String)
    (hsz : ∀ l, sz l ≤ MAX_FILE_SIZE) :
    getConversation (mapGet (saveMessage sz store sid r c t) sid) =
      saveMessageTurns (getConversation (mapGet store sid)) r c t := by
  simp only [saveMessage, mapGet_mapSet_self]
  exact getConversation_some_array _ _
    (by have := hsz (saveMessageTurns (getConversation (mapGet store sid)) r c t); omega)

theorem getConversation_appendTurns (sz : List SessionTurn → Nat) (sid : String)
    (hsz : ∀ l, sz l ≤ MAX_FILE_SIZE) :
    ∀ (ts : List SessionTurn) (store : List (String × SessionFile)),
      getConversation (mapGet (appendTurns sz store sid ts) sid) =
        ts.foldl (fun conv turn => lastCap (conv ++ [turn]))
          (getConversation (mapGet store sid)) := by
  intro ts
  induction ts with
  | nil => intro store; rfl
  | cons turn ts ih =>
    intro store
    simp only [appendTurns, List.foldl_cons] at *
    rw [ih, getConversation_saveMessage sz store sid _ _ _ hsz,
      saveMessageTurns_eq_lastCap]

theorem foldl_lastCap (ts : List SessionTurn) :
    ∀ conv : List SessionTurn,
      ts.foldl (fun c turn => lastCap (c ++ [turn])) (lastCap conv) =
        lastCap (conv ++ ts) := by
  induction ts with
  | nil => intro conv; simp
  | cons turn ts ih =>
    intro conv
    rw [List.foldl_cons, lastCap_append, ih (conv ++ [turn]), List.append_assoc,
      List.singleton_append]

/-- C3: starting from a call identifier with no record, appending `ts` turns
via `saveMessage` with `ts.length` above the cap of 100 leaves exactly the
100 most-recent turns in append order: `getConversation` returns
`ts.drop (ts.length - 100)`, of length 100, whose first turn is the
`(ts.length - 100 + 1)`-th originally appended turn.  (`sz` is the
serialization-size oracle; the hypothesis keeps files under the 1 MB
read guard.) -/
theorem saveMessage_cap (sz : List SessionTurn → Nat)
    (store : List (String × SessionFile)) (sid : String) (ts : List SessionTurn)
    (hsz : ∀ l, sz l ≤ MAX_FILE_SIZE)
    (h0 : mapGet store sid = none)
    (hn : MAX_CONVERSATION_SIZE < ts.length) :
    getConversation (mapGet (appendTurns sz store sid ts) sid) =
        ts.drop (ts.length - MAX_CONVERSATION_SIZE) ∧
      (getConversation (mapGet (appendTurns sz store sid ts) sid)).length =
        MAX_CONVERSATION_SIZE ∧
      (getConversation (mapGet (appendTurns sz store sid ts) sid)).head? =
        ts[ts.length - MAX_CONVERSATION_SIZE]? := by
  have hempty : getConversation (mapGet store sid) = lastCap [] := by
    rw [h0]; rfl
  have hmain : getConversation (mapGet (appendTurns sz store sid ts) sid) =
      ts.drop (ts.length - MAX_CONVERSATION_SIZE) := by
    rw [getConversation_appendTurns sz sid hsz ts store, hempty, foldl_lastCap,
      List.nil_append, lastCap]
  refine ⟨hmain, ?_, ?_⟩
  · rw [hmain, List.length_drop]
    omega
  · rw [hmain, List.head?_drop]

/-- The 105 concrete turns used by the C3 witness. -/
def witnessTurns : List SessionTurn :=
  (List.range 105).map (fun i => ⟨"user", toString i, ""⟩)

/-- Witness for C3: appending 105 turns to a fresh call leaves exactly 100,
and the first retained turn is the 6th originally appended (index 5). -/
theorem saveMessage_cap_w :
    (∀ l : List SessionTurn, (fun _ => 2) l ≤ MAX_FILE_SIZE) ∧
      mapGet ([] : List (String × SessionFile)) "CA1" = none ∧
      MAX_CONVERSATION_SIZE < witnessTurns.length ∧
      (getConversation (mapGet (appendTurns (fun _ => 2) [] "CA1" witnessTurns) "CA1") =
          witnessTurns.drop (witnessTurns.length - MAX_CONVERSATION_SIZE) ∧
        (getConversation (mapGet (appendTurns (fun _ => 2) [] "CA1" witnessTurns) "CA1")).length =
          MAX_CONVERSATION_SIZE ∧
        (getConversation (mapGet (appendTurns (fun _ => 2) [] "CA1" witnessTurns) "CA1")).head? =
          witnessTurns[witnessTurns.length - MAX_CONVERSATION_SIZE]?) ∧
      witnessTurns[(5 : Nat)]? = some ⟨"user", "5", ""⟩ :=
  ⟨fun _ => by show (2 : Nat) ≤ MAX_FILE_SIZE; decide, rfl, by decide,
    saveMessage_cap (fun _ => 2) [] "CA1" witnessTurns
      (fun _ => by show (2 : Nat) ≤ MAX_FILE_SIZE; decide) rfl (by decide),
    by decide⟩

/-! ## Conversation state machine (`conversationStateManager.js`)

In-memory per-call metadata kept in a `Map` keyed by call SID.  The free-form
initial metadata object is modelled as a string-keyed map; the `objections`
`Set` as an insertion-ordered duplicate-free list. -/

/-- One `conversationMetadata` record. -/
structure ConvMetadata where
  state : String
  metadata : List (String × String)
  lastInteraction : Int
  interruptions : Nat
  bookingAttempts : Nat
  objections : List String
deriving DecidableEq

/-- `initializeConversation(callSid, metadata)`: fresh record in state
`greeting` with zeroed counters and an empty objection set. -/
def initializeConversation (store : List (String × ConvMetadata)) (callSid : String)
    (metadata : List (String × String)) (now : Int) : List (String × ConvMetadata) :=
  mapSet store callSid ⟨"greeting", metadata, now, 0, 0, []⟩

/-- `updateState(callSid, newState)`: overwrite the state and refresh the
last-interaction timestamp; no-op when no record exists. -/
def updateState (store : List (String × ConvMetadata)) (callSid newState : String)
    (now : Int) : List (String × ConvMetadata) :=
  match mapGet store callSid with
  | some conv =>
    mapSet store callSid { conv with state := newState, lastInteraction := now }
  | none => store

/-- `handleInterruption(callSid)`: increment the interruption counter and
return whether the counter has reached 2; `false` with the store unchanged
when no record exists. -/
def handleInterruption (store : List (String × ConvMetadata)) (callSid : String)
    (now : Int) : Bool × List (String × ConvMetadata) :=
  match mapGet store callSid with
  | some conv =>
    (conv.interruptions + 1 ≥ 2,
      mapSet store callSid
        { conv with interruptions := conv.interruptions + 1, lastInteraction := now })
  | none => (false, store)

/-- `trackBookingAttempt(callSid)`: increment and return the booking-attempt
counter; `0` with the store unchanged when no record exists. -/
def trackBookingAttempt (store : List (String × ConvMetadata)) (callSid : String) :
    Nat × List (String × ConvMetadata) :=
  match mapGet store callSid with
  | some conv =>
    (conv.bookingAttempts + 1,
      mapSet store callSid { conv with bookingAttempts := conv.bookingAttempts + 1 })
  | none => (0, store)

/-- `Set.prototype.add`: append unless already present. -/
def setAdd (l : List String) (x : String) : List String :=
  if x ∈ l then l else l ++ [x]

/-- `trackObjection(callSid, objection)`: add the category to the objection
set; no-op when no record exists. -/
def trackObjection (store : List (String × ConvMetadata)) (callSid objection : String) :
    List (String × ConvMetadata) :=
  match mapGet store callSid with
  | some conv =>
    mapSet store callSid { conv with objections := setAdd conv.objections objection }
  | none => store

/-- `getConversationMetadata(callSid)`: the record, or `null`. -/
def getConversationMetadata (store : List (String × ConvMetadata)) (callSid : String) :
    Option ConvMetadata :=
  mapGet store callSid

/-- `isConversationStale(callSid, timeout)`: true when no interaction within
the timeout, or when no record exists at all. -/
def isConversationStale (store : List (String × ConvMetadata)) (callSid : String)
    (now timeout : Int) : Bool :=
  match mapGet store callSid with
  | some conv => now - conv.lastInteraction > timeout
  | none => true

/-- `cleanupConversation(callSid)`: remove the record. -/
def cleanupConversation (store : List (String × ConvMetadata)) (callSid : String) :
    List (String × ConvMetadata) :=
  mapDelete store callSid

/-- The state-machine operations other than `initializeConversation`,
`handleInterruption` and `cleanupConversation` that can run during a call. -/
inductive MidCallOp where
  | updState (sid newState : String) (now : Int)
  | bookingAttempt (sid : String)
  | objection (sid category : String)

/-- Apply a mid-call operation to the metadata store. -/
def applyMidCallOp (store : List (String × ConvMetadata)) :
    MidCallOp → List (String × ConvMetadata)
  | .updState sid newState now => updateState store sid newState now
  | .bookingAttempt sid => (trackBookingAttempt store sid).2
  | .objection sid category => trackObjection store sid category

/-- The interruption counter recorded for a call, if any. -/
def interruptionsOf (store : List (String × ConvMetadata)) (callSid : String) :
    Option Nat :=
  (mapGet store callSid).map (·.interruptions)

theorem interruptionsOf_applyMidCallOp (store : List (String × ConvMetadata))
    (callSid : String) (op : MidCallOp) :
    interruptionsOf (applyMidCallOp store op) callSid = interruptionsOf store callSid := by
  have hset : ∀ (sid : String) (conv conv' : ConvMetadata),
      mapGet store sid = some conv → conv'.interruptions = conv.interruptions →
      interruptionsOf (mapSet store sid conv') callSid = interruptionsOf store callSid := by
    intro sid conv conv' hget hsame
    by_cases hsid : sid = callSid
    · subst hsid
      simp [interruptionsOf, mapGet_mapSet_self, hget, hsame]
    · simp [interruptionsOf, mapGet_mapSet_ne store callSid sid conv' hsid]
  cases op with
  | updState sid newState now =>
    simp only [applyMidCallOp, updateState]
    cases hget : mapGet store sid with
    | none => rfl
    | some conv => exact hset sid conv _ hget rfl
  | bookingAttempt sid =>
    simp only [applyMidCallOp, trackBookingAttempt]
    cases hget : mapGet store sid with
    | none => rfl
    | some conv => exact hset sid conv _ hget rfl
  | objection sid category =>
    simp only [applyMidCallOp, trackObjection]
    cases hget : mapGet store sid with
    | none => rfl
    | some conv => exact hset sid conv _ hget rfl

/-- C7: after `initializeConversation` (and before any cleanup), the first
`handleInterruption` returns `false` and the second consecutive call returns
`true`; each call increments the interruption counter, and no other
mid-call operation (`updateState`, `trackBookingAttempt`, `trackObjection`)
ever changes it. -/
theorem handleInterruption_false_then_true (store : List (String × ConvMetadata))
    (callSid : String) (metadata : List (String × String)) (now n1 n2 : Int) :
    (handleInterruption (initializeConversation store callSid metadata now)
        callSid n1).1 = false ∧
      interruptionsOf
        (handleInterruption (initializeConversation store callSid metadata now)
          callSid n1).2 callSid = some 1 ∧
      (handleInterruption
        (handleInterruption (initializeConversation store callSid metadata now)
          callSid n1).2 callSid n2).1 = true ∧
      (∀ (s : List (String × ConvMetadata)) (op : MidCallOp),
        interruptionsOf (applyMidCallOp s op) callSid = interruptionsOf s callSid) := by
  refine ⟨?_, ?_, ?_, fun s op => interruptionsOf_applyMidCallOp s callSid op⟩ <;>
    simp [handleInterruption, initializeConversation, interruptionsOf, mapGet_mapSet_self]

/-- C10: for a call identifier with no metadata record, every state-machine
operation other than `initializeConversation` is a safe no-op that creates
no record: `updateState` and `trackObjection` leave the store unchanged,
`handleInterruption` returns `false`, `trackBookingAttempt` returns `0`
(both without touching the store), and `getConversationMetadata` is `null`. -/
theorem noRecord_ops_noop (store : List (String × ConvMetadata))
    (callSid newState category : String) (now now' : Int)
    (h : mapGet store callSid = none) :
    updateState store callSid newState now = store ∧
      trackObjection store callSid category = store ∧
      handleInterruption store callSid now' = (false, store) ∧
      trackBookingAttempt store callSid = (0, store) ∧
      getConversationMetadata store callSid = none := by
  simp [updateState, trackObjection, handleInterruption, trackBookingAttempt,
    getConversationMetadata, h]

/-- Witness for C10 at a concrete input: empty store, call SID `"CA9"`. -/
theorem noRecord_ops_noop_w :
    mapGet ([] : List (String × ConvMetadata)) "CA9" = none ∧
      (updateState [] "CA9" "processing" 3 = [] ∧
        trackObjection [] "CA9" "price" = [] ∧
        handleInterruption [] "CA9" 4 = (false, []) ∧
        trackBookingAttempt [] "CA9" = (0, []) ∧
        getConversationMetadata [] "CA9" = none) :=
  ⟨rfl, noRecord_ops_noop [] "CA9" "processing" "price" 3 4 rfl⟩

/-! ## Knowledge index (`knowledgeBaseService.js`)

Keyword extraction and the `getRelevantChunks` query.  JS strings are
handled at the character-list level: `toLowerCase` maps `Char.toLower`
(the knowledge base is ASCII text), `replace(/[^\w\s]/g, '')` keeps word
and whitespace characters, `split(/\s+/)` yields the maximal whitespace-free
runs plus an empty token at either end when the string starts or ends with
whitespace (and the single empty token for the empty string), mirroring
JavaScript `String.prototype.split` with a non-anchored regexp. -/

/-- JS `\w`: ASCII letters, digits and underscore. -/
def isWordChar (c : Char) : Bool :=
  c.isAlpha || c.isDigit || c = '_'

/-- JS `\s` (the common ASCII whitespace). -/
def isSpaceChar (c : Char) : Bool :=
  c = ' ' || c = '\t' || c = '\n' || c = '\r' || c = '\x0b' || c = '\x0c'

/-- `replace(/[^\w\s]/g, '')`: drop characters that are neither word
characters nor whitespace. -/
def stripKeep (cs : List Char) : List Char :=
  cs.filter (fun c => isWordChar c || isSpaceChar c)

/-- Maximal whitespace-free runs of a character list; `acc` holds the
current run reversed. -/
def wsTokensAux : List Char → List Char → List (List Char)
  | [], acc => if acc = [] then [] else [acc.reverse]
  | c :: cs, acc =>
    if isSpaceChar c then
      if acc = [] then wsTokensAux cs [] else acc.reverse :: wsTokensAux cs []
    else wsTokensAux cs (c :: acc)

/-- JS `split(/\s+/)` on a character list. -/
def jsSplitWs (cs : List Char) : List (List Char) :=
  match cs with
  | [] => [[]]
  | c :: rest =>
    (if isSpaceChar c then [[]] else []) ++ wsTokensAux (c :: rest) []
      ++ (if isSpaceChar ((c :: rest).getLast (by simp)) then [[]] else [])

/-- `new Set(words)` as an insertion-ordered duplicate-free list. -/
def dedupFirstAux : List String → List String → List String
  | [], _ => []
  | x :: xs, seen =>
    if x ∈ seen then dedupFirstAux xs seen else x :: dedupFirstAux xs (x :: seen)

/-- First-occurrence deduplication (JS `Set` iteration order). -/
def dedupFirst (l : List String) : List String :=
  dedupFirstAux l []

/-- The tokens of `extractKeywords` before deduplication: lower-case,
strip non-word characters, split on whitespace, keep length > 3. -/
def keywordTokens (text : String) : List (List Char) :=
  (jsSplitWs (stripKeep (text.toList.map Char.toLower))).filter
    (fun t => t.length > 3)

/-- `extractKeywords(text)`: the keyword set of a text. -/
def extractKeywords (text : String) : List String :=
  dedupFirst ((keywordTokens text).map (fun t => ⟨t⟩))

/-- `calculateRelevanceScore(chunkKeywords, queryKeywords)`: the number of
query keywords present in the chunk's keyword set. -/
def calculateRelevanceScore (chunkKeywords queryKeywords : List String) : Nat :=
  queryKeywords.foldl (fun score k => if k ∈ chunkKeywords then score + 1 else score) 0

/-- A knowledge-base chunk (with its attached relevance score). -/
structure Chunk where
  content : String
  source : String
  keywords : List String
  relevanceScore : Nat
deriving DecidableEq

/-- Insert a chunk into a list sorted by descending score, after any chunk
of equal score (the stable position). -/
def insertByScore (c : Chunk) : List Chunk → List Chunk
  | [] => [c]
  | x :: xs =>
    if c.relevanceScore > x.relevanceScore then c :: x :: xs
    else x :: insertByScore c xs

/-- `sort((a, b) => b.relevanceScore - a.relevanceScore)`: JS `Array.sort`
is stable, and a stable sort under this comparator is exactly descending
insertion keeping ties in encounter order. -/
def sortByScoreDesc (l : List Chunk) : List Chunk :=
  l.foldl (fun acc c => insertByScore c acc) []

/-- `getRelevantChunks(query)`.  `memCache` is the in-process hot-set
(`memoryCache.values()` in insertion order), `cachedAll` the full chunk
collection from the shared cache (`null` when absent).  First pass filters
the hot-set by raw query words (lower-cased, whitespace-split, *not*
stripped of punctuation), sorts by score and takes 3; when it yields
nothing, every cached chunk is re-scored against `extractKeywords(query)`,
chunks with score 0 are dropped, and the top 3 by descending score are
returned.  (The write-back of results into the hot-set does not affect the
returned value and is not modelled.) -/
def getRelevantChunks (memCache : List Chunk) (cachedAll : Option (List Chunk))
    (query : String) : List Chunk :=
  let queryWords : List String :=
    (jsSplitWs (query.toList.map Char.toLower)).map (fun t => ⟨t⟩)
  let memHits :=
    (sortByScoreDesc
      (memCache.filter (fun c => queryWords.any (fun w => decide (w ∈ c.keywords))))).take 3
  if memHits.length > 0 then memHits
  else
    match cachedAll with
    | none => []
    | some allChunks =>
      let queryKeywords := extractKeywords query
      (sortByScoreDesc
        (((allChunks.map (fun c =>
            { c with relevanceScore := calculateRelevanceScore c.keywords queryKeywords })).filter
          (fun c => decide (c.relevanceScore > 0))))).take 3

/-- C4: `getRelevantChunks` returns at most 3 chunks, and ranking is
deterministic with stable tie-breaking: when the cached collection's three
chunks score [2, 2, 1] against the query (redis-path ranking, empty
hot-set), the two score-2 chunks come back in their original collection
order followed by the score-1 chunk. -/
theorem getRelevantChunks_top3 (memCache : List Chunk) (cachedAll : Option (List Chunk))
    (q : String) :
    (getRelevantChunks memCache cachedAll q).length ≤ 3 ∧
      (∀ c0 c1 c2 : Chunk, memCache = [] → cachedAll = some [c0, c1, c2] →
        calculateRelevanceScore c0.keywords (extractKeywords q) = 2 →
        calculateRelevanceScore c1.keywords (extractKeywords q) = 2 →
        calculateRelevanceScore c2.keywords (extractKeywords q) = 1 →
        getRelevantChunks memCache cachedAll q =
          [{ c0 with relevanceScore := 2 }, { c1 with relevanceScore := 2 },
            { c2 with relevanceScore := 1 }]) := by
  constructor
  · simp only [getRelevantChunks]
    split
    · simp only [List.length_take]
      omega
    · cases cachedAll with
      | none => simp
      | some allChunks =>
        simp only [List.length_take]
        omega
  · intro c0 c1 c2 hmem hall h0 h1 h2
    subst hmem
    subst hall
    simp [getRelevantChunks, sortByScoreDesc, insertByScore, h0, h1, h2]

/-- The three concrete chunks used by the C4 witness. -/
def chunkA : Chunk := ⟨"alpha beta", "f1.txt", extractKeywords "alpha beta", 0⟩

/-- Second C4 witness chunk (same score as `chunkA`, later in the collection). -/
def chunkB : Chunk := ⟨"beta alpha gammax", "f1.txt", extractKeywords "beta alpha gammax", 0⟩

/-- Third C4 witness chunk (lower score). -/
def chunkC : Chunk := ⟨"alpha solo", "f2.txt", extractKeywords "alpha solo", 0⟩

/-- Witness for C4 at a concrete input: chunks scoring [2, 2, 1] against the
query `"alpha beta"` with an empty hot-set. -/
theorem getRelevantChunks_top3_w :
    calculateRelevanceScore chunkA.keywords (extractKeywords "alpha beta") = 2 ∧
      calculateRelevanceScore chunkB.keywords (extractKeywords "alpha beta") = 2 ∧
      calculateRelevanceScore chunkC.keywords (extractKeywords "alpha beta") = 1 ∧
      (getRelevantChunks [] (some [chunkA, chunkB, chunkC]) "alpha beta").length ≤ 3 ∧
      getRelevantChunks [] (some [chunkA, chunkB, chunkC]) "alpha beta" =
        [{ chunkA with relevanceScore := 2 }, { chunkB with relevanceScore := 2 },
          { chunkC with relevanceScore := 1 }] :=
  ⟨by decide, by decide, by decide,
    (getRelevantChunks_top3 [] (some [chunkA, chunkB, chunkC]) "alpha beta").1,
    (getRelevantChunks_top3 [] (some [chunkA, chunkB, chunkC]) "alpha beta").2
      chunkA chunkB chunkC rfl rfl (by decide) (by decide) (by decide)⟩

theorem mem_of_mem_dedupFirstAux (x : String) :
    ∀ (l seen : List String), x ∈ dedupFirstAux l seen → x ∈ l := by
  intro l
  induction l with
  | nil => intro seen h; exact absurd h (by simp [dedupFirstAux])
  | cons y ys ih =>
    intro seen h
    simp only [dedupFirstAux] at h
    split at h
    · exact List.mem_cons_of_mem _ (ih _ h)
    · rcases List.mem_cons.mp h with h | h
      · exact h ▸ List.mem_cons_self _ _
      · exact List.mem_cons_of_mem _ (ih _ h)

theorem mem_dedupFirstAux_of_mem (x : String) :
    ∀ (l seen : List String), x ∈ l → x ∉ seen → x ∈ dedupFirstAux l seen := by
  intro l
  induction l with
  | nil => intro seen h _; exact absurd h (List.not_mem_nil x)
  | cons y ys ih =>
    intro seen h hs
    simp only [dedupFirstAux]
    rcases List.mem_cons.mp h with rfl | h
    · rw [if_neg hs]
      exact List.mem_cons_self _ _
    · split
      · exact ih _ h hs
      · by_cases hxy : x = y
        · exact hxy ▸ List.mem_cons_self _ _
        · exact List.mem_cons_of_mem _
            (ih _ h (by simp only [List.mem_cons]; push_neg; exact ⟨hxy, hs⟩))

theorem wsTokensAux_chars (ch : Char) (t : List Char) :
    ∀ (cs acc : List Char), t ∈ wsTokensAux cs acc → ch ∈ t →
      (ch ∈ cs ∧ isSpaceChar ch = false) ∨ ch ∈ acc := by
  intro cs
  induction cs with
  | nil =>
    intro acc ht hch
    simp only [wsTokensAux] at ht
    split at ht
    · exact absurd ht (List.not_mem_nil t)
    · right
      rcases List.mem_singleton.mp ht with rfl
      exact List.mem_reverse.mp hch
  | cons c cs ih =>
    intro acc ht hch
    simp only [wsTokensAux] at ht
    split at ht
    · -- c is whitespace
      next hs =>
      have hrest : t ∈ wsTokensAux cs [] → (ch ∈ c :: cs ∧ isSpaceChar ch = false) ∨ ch ∈ acc := by
        intro h
        rcases ih [] h hch with ⟨h1, h2⟩ | h1
        · exact Or.inl ⟨List.mem_cons_of_mem _ h1, h2⟩
        · exact absurd h1 (List.not_mem_nil ch)
      split at ht
      · exact hrest ht
      · rcases List.mem_cons.mp ht with rfl | h
        · exact Or.inr (List.mem_reverse.mp hch)
        · exact hrest h
    · -- c is not whitespace
      next hs =>
      rcases ih (c :: acc) ht hch with ⟨h1, h2⟩ | h1
      · exact Or.inl ⟨List.mem_cons_of_mem _ h1, h2⟩
      · rcases List.mem_cons.mp h1 with rfl | h1
        · exact Or.inl ⟨List.mem_cons_self _ _, Bool.eq_false_iff.mpr hs⟩
        · exact Or.inr h1

theorem wsTokensAux_stripKeep (t : List Char) :
    ∀ (cs acc : List Char), t ∈ wsTokensAux cs acc →
      (∀ ch ∈ t, isWordChar ch = true) →
      t ∈ wsTokensAux (stripKeep cs) (acc.filter isWordChar) := by
  intro cs
  induction cs with
  | nil =>
    intro acc ht hw
    simp only [wsTokensAux] at ht
    split at ht
    · exact absurd ht (List.not_mem_nil t)
    · next hne =>
      rcases List.mem_singleton.mp ht with rfl
      have hacc : ∀ ch ∈ acc, isWordChar ch = true := fun ch hc =>
        hw ch (List.mem_reverse.mpr hc)
      have hfa : acc.filter isWordChar = acc := List.filter_eq_self.mpr hacc
      simp only [stripKeep, List.filter_nil, wsTokensAux, hfa]
      rw [if_neg hne]
      exact List.mem_singleton.mpr rfl
  | cons c cs ih =>
    intro acc ht hw
    simp only [wsTokensAux] at ht
    split at ht
    · next hs =>
      have hstrip : stripKeep (c :: cs) = c :: stripKeep cs := by
        simp [stripKeep, List.filter_cons, hs]
      rw [hstrip]
      simp only [wsTokensAux]
      rw [if_pos hs]
      split at ht
      · next hacc =>
        subst hacc
        have hres := ih [] ht hw
        simp only [List.filter_nil] at hres ⊢
        simpa using hres
      · next hacc =>
        rcases List.mem_cons.mp ht with rfl | hmem
        · have hacc' : ∀ ch ∈ acc, isWordChar ch = true := fun ch hc =>
            hw ch (List.mem_reverse.mpr hc)
          have hfa : acc.filter isWordChar = acc := List.filter_eq_self.mpr hacc'
          rw [hfa, if_neg hacc]
          exact List.mem_cons_self _ _
        · have hres := ih [] hmem hw
          simp only [List.filter_nil] at hres
          split
          · exact hres
          · exact List.mem_cons_of_mem _ hres
    · next hs =>
      by_cases hwc : isWordChar c = true
      · have hstrip : stripKeep (c :: cs) = c :: stripKeep cs := by
          simp [stripKeep, List.filter_cons, hwc]
        rw [hstrip]
        simp only [wsTokensAux]
        rw [if_neg hs]
        have hres := ih (c :: acc) ht hw
        rwa [List.filter_cons_of_pos hwc] at hres
      · have hw0 : isWordChar c = false := Bool.eq_false_iff.mpr hwc
        have hs0 : isSpaceChar c = false := Bool.eq_false_iff.mpr hs
        have hstrip : stripKeep (c :: cs) = stripKeep cs := by
          simp [stripKeep, List.filter_cons, hw0, hs0]
        rw [hstrip]
        have hres := ih (c :: acc) ht hw
        rwa [List.filter_cons_of_neg hwc] at hres

theorem mem_wsTokensAux_of_mem_jsSplitWs (t cs : List Char)
    (ht : t ∈ jsSplitWs cs) (hne : t ≠ []) : t ∈ wsTokensAux cs [] := by
  cases cs with
  | nil =>
    simp only [jsSplitWs, List.mem_singleton] at ht
    exact absurd ht hne
  | cons c rest =>
    simp only [jsSplitWs, List.mem_append] at ht
    rcases ht with (ht | ht) | ht
    · split at ht
      · rcases List.mem_singleton.mp ht with rfl
        exact absurd rfl hne
      · exact absurd ht (List.not_mem_nil t)
    · exact ht
    · split at ht
      · rcases List.mem_singleton.mp ht with rfl
        exact absurd rfl hne
      · exact absurd ht (List.not_mem_nil t)

theorem mem_jsSplitWs_of_mem_wsTokensAux (t cs : List Char)
    (ht : t ∈ wsTokensAux cs []) : t ∈ jsSplitWs cs := by
  cases cs with
  | nil => simp [wsTokensAux] at ht
  | cons c rest =>
    simp only [jsSplitWs, List.mem_append]
    exact Or.inl (Or.inr ht)

theorem keyword_shape (text k : String) (hk : k ∈ extractKeywords text) :
    3 < k.toList.length ∧ ∀ ch ∈ k.toList, isWordChar ch = true := by
  have hk1 : k ∈ (keywordTokens text).map (fun t => (⟨t⟩ : String)) :=
    mem_of_mem_dedupFirstAux k _ [] hk
  rcases List.mem_map.mp hk1 with ⟨t, htk, rfl⟩
  simp only [keywordTokens, List.mem_filter] at htk
  obtain ⟨hsplit, hlen⟩ := htk
  refine ⟨by simpa using hlen, ?_⟩
  intro ch hc
  have hne : t ≠ [] := by
    intro h
    subst h
    simp at hlen
  have htok := mem_wsTokensAux_of_mem_jsSplitWs t _ hsplit hne
  rcases wsTokensAux_chars ch t _ [] htok hc with ⟨hmem, hsp⟩ | habs
  · simp only [stripKeep, List.mem_filter] at hmem
    rcases hmem with ⟨_, hcond⟩
    rcases (Bool.or_eq_true _ _).mp hcond with h | h
    · exact h
    · rw [h] at hsp
      exact absurd hsp (by simp)
  · exact absurd habs (List.not_mem_nil ch)

/-- A raw whitespace-split word of the lower-cased query that lies in some
extracted keyword set is itself a keyword of the query under the full
keyword rule. -/
theorem query_word_is_keyword (q text : String) (w : String)
    (hwq : w ∈ (jsSplitWs (q.toList.map Char.toLower)).map (fun t => (⟨t⟩ : String)))
    (hwk : w ∈ extractKeywords text) : w ∈ extractKeywords q := by
  rcases List.mem_map.mp hwq with ⟨t, htq, rfl⟩
  obtain ⟨hlen, hword⟩ := keyword_shape text _ hwk
  have hne : t ≠ [] := by
    intro h
    subst h
    simp at hlen
  have htok := mem_wsTokensAux_of_mem_jsSplitWs t _ htq hne
  have hstr := wsTokensAux_stripKeep t _ [] htok hword
  simp only [List.filter_nil] at hstr
  have hsplit2 := mem_jsSplitWs_of_mem_wsTokensAux t _ hstr
  have hktok : t ∈ keywordTokens q := by
    simp only [keywordTokens, List.mem_filter]
    exact ⟨hsplit2, by simpa using hlen⟩
  exact mem_dedupFirstAux_of_mem _ _ [] (List.mem_map.mpr ⟨t, hktok, rfl⟩)
    (List.not_mem_nil _)

theorem calculateRelevanceScore_eq_zero (cks qks : List String)
    (h : ∀ k ∈ qks, k ∉ cks) : calculateRelevanceScore cks qks = 0 := by
  have aux : ∀ (l : List String) (n : Nat), (∀ k ∈ l, k ∉ cks) →
      l.foldl (fun score k => if k ∈ cks then score + 1 else score) n = n := by
    intro l
    induction l with
    | nil => intro n _; rfl
    | cons x xs ih =>
      intro n hl
      simp only [List.foldl_cons]
      rw [if_neg (hl x (List.mem_cons_self _ _))]
      exact ih n (fun k hk => hl k (List.mem_cons_of_mem _ hk))
  exact aux qks 0 h

/-- C5: for any indexed chunk collection — hot-set chunks (whose keyword
sets were produced by the keyword rule) and cached full collection — and
any query whose keyword set under the keyword rule (lower-cased, non-word
characters stripped, tokens of length > 3) shares no element with any
chunk's keyword set, `getRelevantChunks` returns the empty list. -/
theorem getRelevantChunks_no_shared (memCache : List Chunk)
    (cachedAll : Option (List Chunk)) (q : String)
    (hMemKw : ∀ c ∈ memCache, c.keywords = extractKeywords c.content)
    (hMemDis : ∀ c ∈ memCache, ∀ k ∈ extractKeywords q, k ∉ c.keywords)
    (hAllDis : ∀ c ∈ cachedAll.getD [], ∀ k ∈ extractKeywords q, k ∉ c.keywords) :
    getRelevantChunks memCache cachedAll q = [] := by
  have hfilter : List.filter
      (fun c => ((jsSplitWs (q.toList.map Char.toLower)).map (fun t => (⟨t⟩ : String))).any
        (fun w => decide (w ∈ c.keywords))) memCache = [] := by
    rw [List.filter_eq_nil_iff]
    intro c hc hany
    rcases List.any_eq_true.mp hany with ⟨w, hwq, hwk⟩
    have hwk' : w ∈ c.keywords := of_decide_eq_true hwk
    have hkw : w ∈ extractKeywords q :=
      query_word_is_keyword q c.content w hwq (by rwa [hMemKw c hc] at hwk')
    exact hMemDis c hc w hkw hwk'
  simp only [getRelevantChunks, hfilter]
  simp only [sortByScoreDesc, List.foldl_nil, List.take_nil, List.length_nil]
  rw [if_neg (by omega)]
  cases cachedAll with
  | none => rfl
  | some allChunks =>
    simp only [Option.getD] at hAllDis
    have hf2 : List.filter (fun c => decide (c.relevanceScore > 0))
        (allChunks.map (fun c =>
          { c with relevanceScore := calculateRelevanceScore c.keywords (extractKeywords q) })) = [] := by
      rw [List.filter_eq_nil_iff]
      intro c' hc' hpos
      rcases List.mem_map.mp hc' with ⟨c, hc, rfl⟩
      have hz : calculateRelevanceScore c.keywords (extractKeywords q) = 0 :=
        calculateRelevanceScore_eq_zero _ _ (fun k hk hm => hAllDis c hc k hk hm)
      have hpos' := of_decide_eq_true hpos
      rw [show ({ c with relevanceScore :=
          calculateRelevanceScore c.keywords (extractKeywords q) } : Chunk).relevanceScore =
          calculateRelevanceScore c.keywords (extractKeywords q) from rfl, hz] at hpos'
      exact absurd hpos' (by omega)
    simp only [hf2, sortByScoreDesc, List.foldl_nil, List.take_nil]

/-- The hot-set chunk used by the C5 witness. -/
def chunkHot : Chunk := ⟨"hello world", "f0.txt", extractKeywords "hello world", 0⟩

/-- Witness for C5 at a concrete input: a hot-set chunk and a cached chunk,
queried with `"zzzz qqqq"`, which shares no keyword with either. -/
theorem getRelevantChunks_no_shared_w :
    (∀ c ∈ [chunkHot], c.keywords = extractKeywords c.content) ∧
      (∀ c ∈ [chunkHot], ∀ k ∈ extractKeywords "zzzz qqqq", k ∉ c.keywords) ∧
      (∀ c ∈ (some [chunkA]).getD [], ∀ k ∈ extractKeywords "zzzz qqqq", k ∉ c.keywords) ∧
      getRelevantChunks [chunkHot] (some [chunkA]) "zzzz qqqq" = [] :=
  ⟨by decide, by decide, by decide,
    getRelevantChunks_no_shared [chunkHot] (some [chunkA]) "zzzz qqqq"
      (by decide) (by decide) (by decide)⟩

/-! ## Turn orchestrator (`processSpeechRoute.js`)

The POST `/process-speech` handler.  External collaborators are oracles:
`gen` for `generateReply(speech, history)`, `synth` for
`synthesizeSpeech(text)`, `writeFile` for `fs.writeFileSync` of the audio
buffer; each returns `Except`, an `error` meaning the JS call threw, which
the route's catch-block turns into the apology TwiML.  `saveMessage`,
`getConversation` and the state-machine operations are the models above
(they catch their own errors and cannot throw into the route).  Logging and
the unused `getConversationMetadata(callSid)` read are omitted: they do not
affect the response or the stores. -/

/-- The configuration of every `twiml.gather` call in the route. -/
structure GatherConfig where
  input : String
  action : String
  method : String
  timeout : Nat
  speechTimeout : String
  bargeIn : Bool
deriving DecidableEq

/-- A TwiML verb emitted by the route. -/
inductive TwimlVerb where
  | say (text : String)
  | play (url : String)
  | pause (length : Rat)
  | gather (cfg : GatherConfig)
deriving DecidableEq

/-- The gather configuration used throughout `/process-speech`. -/
def gatherConfig : GatherConfig :=
  ⟨"speech", "/process-speech", "POST", 5, "auto", true⟩

/-- The parsed form body of a `/process-speech` request. -/
structure SpeechRequest where
  CallSid : String
  SpeechResult : Option String
deriving DecidableEq

/-- The stores the handler can mutate: session files and call metadata. -/
structure AgentState where
  conv : List (String × SessionFile)
  meta : List (String × ConvMetadata)
deriving DecidableEq

/-- The catch-block fallback response. -/
def errorTwiml : List TwimlVerb :=
  [.say "Sorry, an error occurred. Please try again.", .gather gatherConfig]

/-- The empty-utterance response. -/
def noSpeechTwiml : List TwimlVerb :=
  [.say "Sorry, I didn't hear anything. Please try again.", .gather gatherConfig]

/-- The interruption-stop response. -/
def interruptTwiml : List TwimlVerb :=
  [.say "I apologize for the interruption. Please go ahead.", .gather gatherConfig]

/-- Is `sub` a prefix of `s`? -/
def charsPrefix : List Char → List Char → Bool
  | [], _ => true
  | _ :: _, [] => false
  | c :: cs, d :: ds => c = d && charsPrefix cs ds

/-- Does `s` contain `sub` as a contiguous run? -/
def charsContains : List Char → List Char → Bool
  | [], sub => sub.isEmpty
  | c :: rest, sub => charsPrefix sub (c :: rest) || charsContains rest sub

/-- JS `String.prototype.includes`. -/
def containsSubstr (s sub : String) : Bool :=
  charsContains s.toList sub.toList

/-- The fixed objection table of the route, in iteration order. -/
def objectionKeywords : List (String × List String) :=
  [("price", ["expensive", "cost", "price", "money", "payment"]),
   ("time", ["busy", "schedule", "time", "long", "duration"]),
   ("experience", ["experience", "background", "skill", "level"])]

/-- The objection-classification loop: first category one of whose keywords
occurs in the lower-cased utterance. -/
def detectObjection (speech : String) : Option String :=
  (objectionKeywords.find? (fun p =>
    p.2.any (fun kw => containsSubstr speech.toLower kw))).map (fun p => p.1)

/-- The canned deflection reply for a detected objection. -/
def objectionReply : String :=
  "I understand your concern. Let me provide more information or address your question."

/-- The part of the handler after the interruption check: transition to
`processing`, short-circuit on empty speech, classify objections, otherwise
generate; then persist both turns, transition to `speaking`, synthesize,
write the audio file and build the play-and-gather response.  Failures of
`gen`, `synth` or `writeFile` fall to the catch block with whatever state
mutations already happened. -/
def processSpeechRest (gen : String → List SessionTurn → Except String String)
    (synth : String → Except String String)
    (writeFile : String → String → Except String Unit)
    (sz : List SessionTurn → Nat) (serverHost : String)
    (callSid speech : String) (now : Int) (tstamp : String)
    (st : AgentState) : List TwimlVerb × AgentState :=
  let st1 : AgentState := { st with meta := updateState st.meta callSid "processing" now }
  if speech = "" then (noSpeechTwiml, st1)
  else
    let textReplyE : Except String String :=
      match detectObjection speech with
      | some _ => .ok objectionReply
      | none => gen speech (getConversation (mapGet st1.conv callSid))
    match textReplyE with
    | .error _ => (errorTwiml, st1)
    | .ok textReply =>
      let conv1 := saveMessage sz st1.conv callSid "user" speech tstamp
      let conv2 := saveMessage sz conv1 callSid "assistant" textReply tstamp
      let st2 : AgentState :=
        { conv := conv2, meta := updateState st1.meta callSid "speaking" now }
      match synth textReply with
      | .error _ => (errorTwiml, st2)
      | .ok audio =>
        let filename := "response-" ++ toString now ++ ".wav"
        match writeFile ("public/audio/" ++ filename) audio with
        | .error _ => (errorTwiml, st2)
        | .ok _ =>
          ([.pause 0.5, .play (serverHost ++ "/audio/" ++ filename), .pause 0.5,
            .gather gatherConfig], st2)

/-- The POST `/process-speech` handler: `speech` is `SpeechResult || ''`,
the interruption flag is `SpeechResult === 'interrupted'`; a stop signal
from `handleInterruption` short-circuits with an apology-and-gather,
otherwise the turn proceeds. -/
def processSpeech (gen : String → List SessionTurn → Except String String)
    (synth : String → Except String String)
    (writeFile : String → String → Except String Unit)
    (sz : List SessionTurn → Nat) (serverHost : String)
    (req : SpeechRequest) (now : Int) (tstamp : String)
    (st : AgentState) : List TwimlVerb × AgentState :=
  let callSid := req.CallSid
  let speech := req.SpeechResult.getD ""
  if req.SpeechResult = some "interrupted" then
    let r := handleInterruption st.meta callSid now
    if r.1 then (interruptTwiml, { st with meta := r.2 })
    else
      processSpeechRest gen synth writeFile sz serverHost callSid speech now tstamp
        { st with meta := r.2 }
  else
    processSpeechRest gen synth writeFile sz serverHost callSid speech now tstamp st

/-- Does a TwiML response contain a `gather` (re-listen) directive? -/
def hasGather (twiml : List TwimlVerb) : Bool :=
  twiml.any (fun v =>
    match v with
    | .gather _ => true
    | _ => false)

theorem processSpeechRest_gathers (gen : String → List SessionTurn → Except String String)
    (synth : String → Except String String)
    (writeFile : String → String → Except String Unit)
    (sz : List SessionTurn → Nat) (serverHost : String)
    (callSid speech : String) (now : Int) (tstamp : String) (st : AgentState) :
    hasGather (processSpeechRest gen synth writeFile sz serverHost callSid speech
      now tstamp st).1 = true := by
  unfold processSpeechRest
  dsimp only
  repeat' split
  all_goals simp [hasGather, noSpeechTwiml, errorTwiml]

/-- C1: for every POST to `/process-speech` — normal utterance, objection
match, empty utterance, interruption stop path, or a failure of generation,
synthesis or the file write — the response contains a `gather` (re-listen)
directive.  The handler is a total function into TwiML responses in this
embedding (the route catches every exception and answers with the apology
TwiML), so no exception reaches the transport and no input produces a
response that terminates the in-progress call. -/
theorem processSpeech_always_relisten (gen : String → List SessionTurn → Except String String)
    (synth : String → Except String String)
    (writeFile : String → String → Except String Unit)
    (sz : List SessionTurn → Nat) (serverHost : String)
    (req : SpeechRequest) (now : Int) (tstamp : String) (st : AgentState) :
    hasGather (processSpeech gen synth writeFile sz serverHost req now tstamp st).1 = true := by
  unfold processSpeech
  dsimp only
  split
  · split
    · simp [hasGather, interruptTwiml]
    · exact processSpeechRest_gathers gen synth writeFile sz serverHost _ _ now tstamp _
  · exact processSpeechRest_gathers gen synth writeFile sz serverHost _ _ now tstamp _

/-- C8: a request with an empty utterance yields the re-prompt directive
(which gathers speech again), leaves the session-history store untouched
(no `saveMessage`), and performs no generation call — the result does not
depend on the generation, synthesis or file-write collaborators at all. -/
theorem processSpeech_empty_no_mutation (gen gen' : String → List SessionTurn → Except String String)
    (synth synth' : String → Except String String)
    (writeFile writeFile' : String → String → Except String Unit)
    (sz : List SessionTurn → Nat) (serverHost : String)
    (req : SpeechRequest) (now : Int) (tstamp : String) (st : AgentState)
    (h : req.SpeechResult.getD "" = "") :
    (processSpeech gen synth writeFile sz serverHost req now tstamp st).1 = noSpeechTwiml ∧
      (processSpeech gen synth writeFile sz serverHost req now tstamp st).2.conv = st.conv ∧
      processSpeech gen synth writeFile sz serverHost req now tstamp st =
        processSpeech gen' synth' writeFile' sz serverHost req now tstamp st := by
  have hni : ¬ (req.SpeechResult = some "interrupted") := by
    intro hc
    rw [hc] at h
    simp at h
  refine ⟨?_, ?_, ?_⟩ <;>
    simp only [processSpeech, if_neg hni, processSpeechRest, if_pos h]

/-- Witness for C8 at a concrete input: a request with no `SpeechResult`,
empty stores, and two collaborator triples that disagree everywhere. -/
theorem processSpeech_empty_no_mutation_w :
    ((⟨"CA7", none⟩ : SpeechRequest).SpeechResult.getD "" = "") ∧
      ((processSpeech (fun _ _ => .ok "yes") (fun _ => .ok "a") (fun _ _ => .ok ())
          (fun _ => 2) "https://h" ⟨"CA7", none⟩ 9 "t" ⟨[], []⟩).1 = noSpeechTwiml ∧
        (processSpeech (fun _ _ => .ok "yes") (fun _ => .ok "a") (fun _ _ => .ok ())
          (fun _ => 2) "https://h" ⟨"CA7", none⟩ 9 "t" ⟨[], []⟩).2.conv = [] ∧
        processSpeech (fun _ _ => .ok "yes") (fun _ => .ok "a") (fun _ _ => .ok ())
          (fun _ => 2) "https://h" ⟨"CA7", none⟩ 9 "t" ⟨[], []⟩ =
          processSpeech (fun _ _ => .error "boom") (fun _ => .error "boom")
            (fun _ _ => .error "boom") (fun _ => 2) "https://h" ⟨"CA7", none⟩ 9 "t" ⟨[], []⟩) :=
  ⟨rfl,
    processSpeech_empty_no_mutation (fun _ _ => .ok "yes") (fun _ _ => .error "boom")
      (fun _ => .ok "a") (fun _ => .error "boom") (fun _ _ => .ok ()) (fun _ _ => .error "boom")
      (fun _ => 2) "https://h" ⟨"CA7", none⟩ 9 "t" ⟨[], []⟩ rfl⟩
